import Mathlib

/-!
Shallow embedding of the crumb secret store (Go) and proofs about it.

Go strings are modelled as lists of characters (`Str`), Go `map[string]string`
values as association lists (`SMap`) whose observable behaviour is fixed by
`lookupS`; map insertion and deletion mirror Go map assignment and `delete`.
The string helpers (`goTrimSpace`, `splitChar`, `breakFirst`, ...) mirror the
Go standard-library functions the source uses (`strings.TrimSpace`,
`strings.Split`, `strings.SplitN`, `strings.HasPrefix`, ...), specialised to
the single-character separators the source passes them.
-/

set_option linter.unusedVariables false

/-- Go strings, modelled as lists of characters. -/
abbrev Str := List Char

/-- The character list of a Lean string literal (used for concrete inputs). -/
def str (s : String) : Str := s.data

/-- The whitespace predicate of Go's `strings.TrimSpace` (`unicode.IsSpace`),
covering the Latin-1 range Go special-cases; the store's payloads are ASCII. -/
def goIsSpace (c : Char) : Bool :=
  c = ' ' || c = '\t' || c = '\n' || c.toNat = 11 || c.toNat = 12 ||
    c = '\r' || c.toNat = 133 || c.toNat = 160

/-- Leading-whitespace trim (the first half of `strings.TrimSpace`). -/
def trimLeftSpace (s : Str) : Str := s.dropWhile goIsSpace

/-- Trailing-whitespace trim (the second half of `strings.TrimSpace`). -/
def trimRightSpace (s : Str) : Str := ((s.reverse).dropWhile goIsSpace).reverse

/-- `strings.TrimSpace`. -/
def goTrimSpace (s : Str) : Str := trimRightSpace (trimLeftSpace s)

/-- `strings.Split` with a one-character separator. Always returns at least
one piece, like Go's `strings.Split`. -/
def splitChar (c : Char) : Str → List Str
  | [] => [[]]
  | x :: xs =>
    match splitChar c xs with
    | [] => [[]]
    | s :: rest => if x = c then [] :: s :: rest else (x :: s) :: rest

/-- The split of a string at its first occurrence of `c`: `none` when `c` does
not occur. Models `strings.SplitN(s, c, 2)` (one part versus two parts). -/
def breakFirst (c : Char) : Str → Option (Str × Str)
  | [] => none
  | x :: xs =>
    if x = c then some ([], xs)
    else
      match breakFirst c xs with
      | none => none
      | some (a, b) => some (x :: a, b)

/-- `strings.HasPrefix s pre`. -/
def goHasPrefixS : Str → Str → Bool
  | _, [] => true
  | [], _ :: _ => false
  | x :: xs, p :: ps => x = p && goHasPrefixS xs ps

/-- `strings.TrimPrefix s pre` (removes one copy of `pre` when present). -/
def goTrimPrefixS (s pre : Str) : Str :=
  if goHasPrefixS s pre then s.drop pre.length else s

/-- `strings.HasSuffix s suf`. -/
def goHasSuffixS (s suf : Str) : Bool := goHasPrefixS s.reverse suf.reverse

/-- `strings.TrimSuffix s suf` (removes one copy of `suf` when present). -/
def goTrimSuffixS (s suf : Str) : Str :=
  if goHasSuffixS s suf then s.take (s.length - suf.length) else s

/-- `strings.ReplaceAll` with one-character pattern and replacement, the only
shape the source uses. -/
def replaceChar (a b : Char) (s : Str) : Str :=
  s.map fun c => if c = a then b else c

/-- `strings.ToUpper` (the source only ever uppercases ASCII variable names). -/
def goToUpper (s : Str) : Str := s.map Char.toUpper

/-- `strings.Join` with a one-character separator. -/
def joinChar (c : Char) : List Str → Str
  | [] => []
  | [l] => l
  | l :: l' :: ls => l ++ c :: joinChar c (l' :: ls)

/-- `sort.Strings`: the lexicographically sorted permutation of a list of
strings (Go compares strings bytewise, which for the characters at hand is the
codepoint order used by the `List Char` linear order). -/
def sortStrings (l : List Str) : List Str := List.insertionSort (· ≤ ·) l

/-- Go `map[string]string`, as an association list; all map observations go
through `lookupS`. -/
abbrev SMap := List (Str × Str)

/-- Map lookup (`v, ok := m[k]`). -/
def lookupS : SMap → Str → Option Str
  | [], _ => none
  | (k, v) :: rest, q => if k = q then some v else lookupS rest q

/-- Go `delete(m, k)` (a Go map holds its key at most once; removing every
matching entry keeps the association list faithful to that). -/
def mapDel : SMap → Str → SMap
  | [], _ => []
  | (k', v) :: rest, k => if k' = k then mapDel rest k else (k', v) :: mapDel rest k

/-- Go map assignment `m[k] = v`. -/
def mapSet (m : SMap) (k v : Str) : SMap := (k, v) :: mapDel m k

/-- The key list of a map (Go `for key := range m`). -/
def keysOf (m : SMap) : List Str := m.map Prod.fst

theorem lookupS_mapDel (m : SMap) (k q : Str) :
    lookupS (mapDel m k) q = if q = k then none else lookupS m q := by
  induction m with
  | nil => simp [mapDel, lookupS]
  | cons p rest ih =>
    obtain ⟨k', v'⟩ := p
    by_cases hk : k' = k <;> by_cases hq : k' = q <;>
      simp_all [mapDel, lookupS]

theorem lookupS_mapSet (m : SMap) (k v q : Str) :
    lookupS (mapSet m k v) q = if q = k then some v else lookupS m q := by
  by_cases hq : q = k
  · subst hq
    simp [mapSet, lookupS]
  · simp [mapSet, lookupS, Ne.symm hq, hq, lookupS_mapDel]

/-! ## The embedded program -/

/-- `parseSecrets`'s loop body (src/pkg/storage/storage.go 155-169): trim the
line, skip it when blank or without `=`, otherwise split at the first `=` and
store the trimmed key/value. -/
def parseLine (m : SMap) (line : Str) : SMap :=
  let l := goTrimSpace line
  if l = [] then m
  else
    match breakFirst '=' l with
    | none => m
    | some kv => mapSet m (goTrimSpace kv.1) (goTrimSpace kv.2)

/-- `parseSecrets` (src/pkg/storage/storage.go 151-172): trim the payload,
split it on newlines and fold the lines into a map. -/
def parseSecrets (content : Str) : SMap :=
  (splitChar '\n' (goTrimSpace content)).foldl parseLine []

/-- The plaintext payload `SaveSecrets` encrypts (src/pkg/storage/storage.go
54-62): one `key=value` line per entry, sorted, joined with newlines. -/
def saveContent (secrets : SMap) : Str :=
  joinChar '\n' (sortStrings (secrets.map fun p => p.1 ++ '=' :: p.2))

/-- `matchesPathFilter` (src/pkg/storage/storage.go 175-185). -/
def matchesPathFilter (key pathFilter : Str) : Bool :=
  if pathFilter = str "/" then true else goHasPrefixS key pathFilter

/-- `GetFilteredKeys` (src/pkg/storage/storage.go 96-124): normalise the
filter (drop one trailing slash unless the filter is empty or `/`), filter the
keys when the filter is nonempty, and sort. -/
def GetFilteredKeys (secrets : SMap) (pathFilter : Str) : List Str :=
  let pf := if pathFilter ≠ [] ∧ pathFilter ≠ str "/"
            then goTrimSuffixS pathFilter (str "/") else pathFilter
  let keys := keysOf secrets
  let keys := if pf ≠ [] then keys.filter (fun k => matchesPathFilter k pf) else keys
  sortStrings keys

/-- The last piece of `strings.Split(s, "/")` (Go `segments[len(segments)-1]`). -/
def lastSegment (s : Str) : Str := (splitChar '/' s).getLastD []

/-- `ExtractVarName` (src/pkg/storage/storage.go 127-143): strip one leading
slash, keep the final path segment, replace `-` with `_`, uppercase. -/
def ExtractVarName (keyPath : Str) : Str :=
  goToUpper (replaceChar '-' '_' (lastSegment (goTrimPrefixS keyPath (str "/"))))

/-- `ConvertPathToEnvVar` (src/pkg/storage/storage.go 243-257): strip the
prefix and one leading slash, keep the final segment, `-`→`_`, uppercase. -/
def ConvertPathToEnvVar (secretPath pathPrefix : Str) : Str :=
  goToUpper (replaceChar '-' '_'
    (lastSegment (goTrimPrefixS (goTrimPrefixS secretPath pathPrefix) (str "/"))))

/-- The variable name computed by `exportCommand`'s path-prefix loop
(src/main.go 899-902): strip the prefix and one leading slash, replace `/`
with `_`, uppercase, then replace `-` with `_`. -/
def prefixKeyName (secretPath pathPrefix : Str) : Str :=
  replaceChar '-' '_'
    (goToUpper (replaceChar '/' '_'
      (goTrimPrefixS (goTrimPrefixS secretPath pathPrefix) (str "/"))))

/-- Variable-name sanitisation used by the env and remap sections
(src/main.go 915, 923-924): replace `-` with `_` and uppercase. -/
def sanitizeName (name : Str) : Str := goToUpper (replaceChar '-' '_' name)

/-- `exportCommand`'s env-section loop (src/main.go 911-918, identically
src/unnamed/part_005 843-850): every entry's configured string is looked up as
a secret path; when the lookup hits, the sanitised variable name is assigned
the stored secret value; when it misses, the entry is skipped. -/
def processEnvSection (secrets envVars : SMap) (envEntries : List (Str × Str)) : SMap :=
  envEntries.foldl
    (fun acc e =>
      match lookupS secrets e.2 with
      | some secretValue => mapSet acc (sanitizeName e.1) secretValue
      | none => acc)
    envVars

/-- One remap entry of `exportCommand` (src/main.go 921-930): sanitise both
names; when the sanitised source key is present, assign its value to the
sanitised target key and then delete the source key. -/
def applyRemapEntry (envVars : SMap) (e : Str × Str) : SMap :=
  let f := sanitizeName e.1
  let t := sanitizeName e.2
  match lookupS envVars f with
  | some value => mapDel (mapSet envVars t value) f
  | none => envVars

/-- The remap loop of `exportCommand`, iterating the remap map's entries in
some order (Go map iteration order is unspecified). -/
def applyRemap (envVars : SMap) (remapEntries : List (Str × Str)) : SMap :=
  remapEntries.foldl applyRemapEntry envVars

/-- The error cases of `MoveSecret` (src/pkg/storage/storage.go 211, 217). -/
inductive MoveError
  | notFound
  | cancelled
deriving DecidableEq

/-- `MoveSecret` (src/pkg/storage/storage.go 208-226). The interactive
`crypto.ConfirmOverwrite` answer is the `confirm` parameter; the source
consults it only when `newKey` already exists. On success the source runs
`secrets[newKey] = value` followed by `delete(secrets, oldKey)`. -/
def MoveSecret (secrets : SMap) (oldKey newKey : Str) (confirm : Bool) :
    Except MoveError SMap :=
  match lookupS secrets oldKey with
  | none => .error .notFound
  | some value =>
    if (lookupS secrets newKey).isSome && !confirm then .error .cancelled
    else .ok (mapDel (mapSet secrets newKey value) oldKey)

/-- `validateKeyPath` (src/main.go 430-456), as the predicate "validation
passes": nonempty, starts with `/`, no space, `=`, newline or tab. -/
def validateKeyPath (keyPath : Str) : Bool :=
  !keyPath.isEmpty && goHasPrefixS keyPath (str "/") &&
    !keyPath.contains ' ' && !keyPath.contains '=' &&
    !keyPath.contains '\n' && !keyPath.contains '\t'

/-! ## The write path of `WriteFileWithLock`, as an event trace -/

/-- File-system events of the locked read/write paths (src/pkg/crypto/crypto.go
129-170). The two temp-file events never occur in the source; they exist so
that "writes a temporary file and atomically renames it" is expressible. -/
inductive FsEvent
  | wOpenTruncate
  | wLockExclusive
  | wWrite
  | wUnlock
  | wClose
  | wWriteTemp
  | wRenameTemp
  | rOpen
  | rLockShared
  | rRead
  | rUnlock
  | rClose
deriving DecidableEq

/-- The event trace of `WriteFileWithLock` (src/pkg/crypto/crypto.go 129-148,
identically `writeFileWithLock` in src/main.go 407-426): open with
`O_CREATE|O_WRONLY|O_TRUNC`, then `Flock(LOCK_EX)`, then write; the deferred
unlock and close run on return. -/
def writeFileWithLockTrace : List FsEvent :=
  [.wOpenTruncate, .wLockExclusive, .wWrite, .wUnlock, .wClose]

/-- The event trace of `ReadFileWithLock` (src/pkg/crypto/crypto.go 151-170):
open read-only, `Flock(LOCK_SH)`, read, then the deferred unlock and close. -/
def readFileWithLockTrace : List FsEvent :=
  [.rOpen, .rLockShared, .rRead, .rUnlock, .rClose]

/-- Whether a write trace publishes via a temp file and atomic rename. -/
def usesTempRename (tr : List FsEvent) : Bool := tr.contains .wRenameTemp

/-- Whether every truncating open in the trace happens while the exclusive
lock is already held. -/
def locksBeforeTruncate : Bool → List FsEvent → Bool
  | _, [] => true
  | locked, e :: rest =>
    match e with
    | .wLockExclusive => locksBeforeTruncate true rest
    | .wUnlock => locksBeforeTruncate false rest
    | .wOpenTruncate => locked && locksBeforeTruncate locked rest
    | _ => locksBeforeTruncate locked rest

/-- The safety discipline the specification demands of the write path. -/
def safeWriteDiscipline (tr : List FsEvent) : Bool :=
  usesTempRename tr || locksBeforeTruncate false tr

/-- Shared state of one writer and one concurrent reader of the storage file.
`flock` blocks rather than fails, so a valid schedule never runs a lock event
while an incompatible lock is held. -/
structure FileState where
  content : Str
  writerData : Str
  exLocked : Bool
  shLocked : Bool
  readResult : Option Str
deriving DecidableEq

/-- Effect of one event on the shared file state; `none` marks an event that
could not be scheduled (a lock that would block, or an event the modelled
code never performs). -/
def fsStep (st : FileState) (e : FsEvent) : Option FileState :=
  match e with
  | .wOpenTruncate => some { st with content := [] }
  | .wLockExclusive =>
    if st.exLocked || st.shLocked then none else some { st with exLocked := true }
  | .wWrite => some { st with content := st.writerData }
  | .wUnlock => some { st with exLocked := false }
  | .wClose => some st
  | .wWriteTemp => none
  | .wRenameTemp => none
  | .rOpen => some st
  | .rLockShared =>
    if st.exLocked then none else some { st with shLocked := true }
  | .rRead => some { st with readResult := some st.content }
  | .rUnlock => some { st with shLocked := false }
  | .rClose => some st

/-- Run a schedule of events from a starting state. -/
def runSchedule (st : FileState) : List FsEvent → Option FileState
  | [] => some st
  | e :: es =>
    match fsStep st e with
    | none => none
    | some st' => runSchedule st' es

/-- `s` interleaves the two traces `a` and `b` (preserving each one's order). -/
def isInterleaving : List FsEvent → List FsEvent → List FsEvent → Bool
  | a, b, [] => a.isEmpty && b.isEmpty
  | a, b, s :: ss =>
    (match a with
     | x :: a' => if x = s then isInterleaving a' b ss else false
     | [] => false)
    ||
    (match b with
     | y :: b' => if y = s then isInterleaving a b' ss else false
     | [] => false)

/-- The interleaving in which a concurrent reader runs between the writer's
truncating open and its exclusive-lock acquisition. -/
def raceSchedule : List FsEvent :=
  [.wOpenTruncate, .rOpen, .rLockShared, .rRead, .rUnlock, .rClose,
   .wLockExclusive, .wWrite, .wUnlock, .wClose]

instance : DecidableEq (Except MoveError SMap) := fun a b =>
  match a, b with
  | .error x, .error y =>
    if h : x = y then .isTrue (h ▸ rfl)
    else .isFalse fun hh => h (Except.error.inj hh)
  | .ok x, .ok y =>
    if h : x = y then .isTrue (h ▸ rfl)
    else .isFalse fun hh => h (Except.ok.inj hh)
  | .error _, .ok _ => .isFalse Except.noConfusion
  | .ok _, .error _ => .isFalse Except.noConfusion

/-! ## Definitions taken from the specification's wording (for refinement
claims), and derived views of the parser used by the proofs -/

/-- Spec 4.3 step 1 wording of the path-prefix variable name: the remaining
suffix (prefix stripped, one leading `/` stripped) with every `/` and `-`
replaced by `_`, uppercased. -/
def specPrefixVarName (secretPath pathPrefix : Str) : Str :=
  goToUpper (replaceChar '-' '_' (replaceChar '/' '_'
    (goTrimPrefixS (goTrimPrefixS secretPath pathPrefix) (str "/"))))

/-- The text after the last `/` of a string (the whole string when it has no
`/`). -/
def afterLastSlash (s : Str) : Str :=
  (s.reverse.takeWhile fun c => decide (c ≠ '/')).reverse

/-- Spec 4.3 sibling-rule wording of the final-segment variable name: only the
text after the last `/`, with `-` replaced by `_`, uppercased. -/
def specFinalSegmentName (p : Str) : Str :=
  goToUpper (replaceChar '-' '_' (afterLastSlash p))

/-- Spec 4.1 wording of the record parser: the payload is split into lines and
each line is handled exactly as `parseLine` does (trim, skip blanks, require
`=`, split at the first `=`, trim both parts). The only textual difference
from `parseSecrets` is the absence of the whole-payload trim. -/
def specLenientParse (content : Str) : SMap :=
  (splitChar '\n' content).foldl parseLine []

/-- The trimmed line, when it is nonempty. -/
def trimNonempty (l : Str) : Option Str :=
  let t := goTrimSpace l
  if t = [] then none else some t

/-- Handling of an already-trimmed nonempty line by the parse loop. -/
def parseRecord (m : SMap) (l : Str) : SMap :=
  match breakFirst '=' l with
  | none => m
  | some kv => mapSet m (goTrimSpace kv.1) (goTrimSpace kv.2)

/-- The effective records of a payload: its lines, trimmed, blanks dropped. -/
def records (s : Str) : List Str :=
  (splitChar '\n' s).filterMap trimNonempty

/-- Folding a list of entries into a map by repeated assignment. -/
def foldSet (m : SMap) (entries : List (Str × Str)) : SMap :=
  entries.foldl (fun acc p => mapSet acc p.1 p.2) m

/-- The key/value pair encoded by a line that contains `=` (dummy otherwise). -/
def decodeLine (l : Str) : Str × Str :=
  match breakFirst '=' l with
  | none => ([], [])
  | some kv => (goTrimSpace kv.1, goTrimSpace kv.2)

/-- A SecretSet representation holds each key at most once. -/
def NodupKeys (m : SMap) : Prop := (keysOf m).Nodup

/-- Joining of two piece lists: the last piece of the first list is fused with
the first piece of the second (how `splitChar` acts on an append). -/
def glue : List Str → List Str → List Str
  | [], bs => bs
  | [a], [] => [a]
  | [a], b :: bs => (a ++ b) :: bs
  | a :: a' :: as, bs => a :: glue (a' :: as) bs

/-! ## Theorems -/

/-- C1. The env section of `exportCommand` does not distinguish literal values
from secret paths: the configured string is always used as a lookup key into
the SecretSet. At the failing input, the literal entry `DB_TYPE: "postgres"`
is silently dropped instead of being assigned verbatim, while a path entry
resolving in the SecretSet is assigned as the claim describes. -/
theorem c1_env_section_drops_literals :
    lookupS (processEnvSection [(str "/a/b", str "v")] []
        [(str "DB_TYPE", str "postgres")]) (str "DB_TYPE") = none ∧
    lookupS (processEnvSection [(str "/a/b", str "v")] []
        [(str "SECRET", str "/a/b")]) (str "SECRET") = some (str "v") := by
  decide

/-- C2. Remap processing is order-dependent: the two orders of the same remap
entry set (a permutation, as produced by Go's unordered map iteration), with
both `A` and `B` remapped to the colliding target `C`, leave different values
under `C`; the code does not process remap pairs in a deterministic order. -/
theorem c2_remap_order_dependent :
    ([(str "A", str "C"), (str "B", str "C")] : List (Str × Str)).Perm
      [(str "B", str "C"), (str "A", str "C")] ∧
    lookupS (applyRemap [(str "A", str "x"), (str "B", str "y")]
        [(str "A", str "C"), (str "B", str "C")]) (str "C") = some (str "y") ∧
    lookupS (applyRemap [(str "A", str "x"), (str "B", str "y")]
        [(str "B", str "C"), (str "A", str "C")]) (str "C") = some (str "x") := by
  decide

/-- C6. `WriteFileWithLock` neither publishes via a temp-file rename nor locks
before truncating (its trace opens with `O_TRUNC` first and flocks second),
and a valid interleaving with the locked reader exists in which the reader
acquires its shared lock after the truncate and reads an empty file, although
the store held `"old"` and the writer writes `"new"`. -/
theorem c6_write_truncates_before_lock :
    safeWriteDiscipline writeFileWithLockTrace = false ∧
    isInterleaving writeFileWithLockTrace readFileWithLockTrace raceSchedule = true ∧
    (runSchedule ⟨str "old", str "new", false, false, none⟩ raceSchedule).map
      FileState.readResult = some (some []) := by
  decide

/-- C10. Moving a secret onto its own path deletes it: when `p` is present and
the confirmation callback answers yes, `MoveSecret secrets p p` succeeds, and
because the source assigns under the new key and then deletes the old key —
the same entry — the resulting set no longer contains `p` at all. -/
theorem c10_move_to_self_deletes (secrets : SMap) (p v : Str)
    (h : lookupS secrets p = some v) :
    MoveSecret secrets p p true = .ok (mapDel (mapSet secrets p v) p) ∧
    lookupS (mapDel (mapSet secrets p v) p) p = none := by
  constructor
  · simp [MoveSecret, h]
  · simp [lookupS_mapDel]

/-- Witness for C10 at the SecretSet `{/a ↦ v}`. -/
theorem c10_move_to_self_deletes_witness :
    MoveSecret [(str "/a", str "v")] (str "/a") (str "/a") true =
      .ok (mapDel (mapSet [(str "/a", str "v")] (str "/a") (str "v")) (str "/a")) ∧
    lookupS (mapDel (mapSet [(str "/a", str "v")] (str "/a") (str "v")) (str "/a"))
      (str "/a") = none :=
  c10_move_to_self_deletes [(str "/a", str "v")] (str "/a") (str "v") (by decide)

/-- C4 counterexample. Moving `/a` onto itself with a confirming callback
succeeds, yet the resulting set is empty: the success clause "the set maps
newPath to oldPath's former value" fails when `oldPath = newPath`. -/
theorem c4_move_counterexample :
    MoveSecret [(str "/a", str "v")] (str "/a") (str "/a") true =
      .ok ([] : SMap) ∧
    lookupS ([] : SMap) (str "/a") = none := by
  decide

/-- C4 (amended: the success clause additionally assumes
`oldPath ≠ newPath`). `MoveSecret` fails with the not-found error when
`oldKey` is absent; fails with the cancellation error when `newKey` exists and
the confirmation callback refuses (in both cases returning no new set, i.e.
no mutation); and on success with distinct keys returns the set that maps
`newKey` to `oldKey`'s former value and no longer contains `oldKey`. -/
theorem c4_move_semantics (m : SMap) (oldKey newKey : Str) (confirm : Bool) :
    (lookupS m oldKey = none →
      MoveSecret m oldKey newKey confirm = .error .notFound) ∧
    (∀ v, lookupS m oldKey = some v → (lookupS m newKey).isSome = true →
      confirm = false → MoveSecret m oldKey newKey confirm = .error .cancelled) ∧
    (∀ v, lookupS m oldKey = some v → oldKey ≠ newKey →
      ((lookupS m newKey).isSome = true → confirm = true) →
      MoveSecret m oldKey newKey confirm =
        .ok (mapDel (mapSet m newKey v) oldKey) ∧
      lookupS (mapDel (mapSet m newKey v) oldKey) newKey = some v ∧
      lookupS (mapDel (mapSet m newKey v) oldKey) oldKey = none) := by
  refine ⟨fun h => by simp [MoveSecret, h], fun v hv hnew hc => ?_, fun v hv hne hcorr => ?_⟩
  · simp [MoveSecret, hv, hnew, hc]
  · have hcond : ((lookupS m newKey).isSome && !confirm) = false := by
      cases hnew' : (lookupS m newKey).isSome with
      | false => simp [hnew']
      | true => simp [hnew', hcorr hnew']
    refine ⟨by simp [MoveSecret, hv, hcond], ?_, ?_⟩
    · rw [lookupS_mapDel, if_neg (Ne.symm hne), lookupS_mapSet, if_pos rfl]
    · rw [lookupS_mapDel, if_pos rfl]

/-- Witness for C4 on the set `{/old ↦ v, /new ↦ w}`: a missing source key
errors, refusing the overwrite cancels, and a confirmed move lands the value
under `/new` and removes `/old`. -/
theorem c4_move_semantics_witness :
    MoveSecret [(str "/old", str "v"), (str "/new", str "w")] (str "/x")
      (str "/new") true = .error .notFound ∧
    MoveSecret [(str "/old", str "v"), (str "/new", str "w")] (str "/old")
      (str "/new") false = .error .cancelled ∧
    (MoveSecret [(str "/old", str "v"), (str "/new", str "w")] (str "/old")
        (str "/new") true =
      .ok (mapDel (mapSet [(str "/old", str "v"), (str "/new", str "w")]
        (str "/new") (str "v")) (str "/old")) ∧
     lookupS (mapDel (mapSet [(str "/old", str "v"), (str "/new", str "w")]
        (str "/new") (str "v")) (str "/old")) (str "/new") = some (str "v") ∧
     lookupS (mapDel (mapSet [(str "/old", str "v"), (str "/new", str "w")]
        (str "/new") (str "v")) (str "/old")) (str "/old") = none) :=
  ⟨(c4_move_semantics [(str "/old", str "v"), (str "/new", str "w")] (str "/x")
      (str "/new") true).1 (by decide),
   (c4_move_semantics [(str "/old", str "v"), (str "/new", str "w")] (str "/old")
      (str "/new") false).2.1 (str "v") (by decide) (by decide) rfl,
   (c4_move_semantics [(str "/old", str "v"), (str "/new", str "w")] (str "/old")
      (str "/new") true).2.2 (str "v") (by decide) (by decide) (fun _ => rfl)⟩

/-- C5 counterexample. With `envVars = {API_KEY ↦ x}` and the remap entry
`api-key ↦ API_KEY`, both names sanitise to `API_KEY`; the sanitised source
key is present, yet after the remap the value does not appear under the
sanitised target key — the entry has been deleted outright (insert, then
delete of the same key). -/
theorem c5_remap_counterexample :
    sanitizeName (str "api-key") = str "API_KEY" ∧
    sanitizeName (str "API_KEY") = str "API_KEY" ∧
    lookupS [(str "API_KEY", str "x")] (str "API_KEY") = some (str "x") ∧
    lookupS (applyRemapEntry [(str "API_KEY", str "x")]
      (str "api-key", str "API_KEY")) (str "API_KEY") = none := by
  decide

/-- C5 (amended: the rename clause additionally assumes the two sanitised
names differ; when they coincide the entry is deleted, see the
counterexample). A remap entry whose sanitised source key is present renames
it — the value appears under the sanitised target key and the source key is
gone — and an entry whose sanitised source key is absent leaves the map
unchanged. -/
theorem c5_remap_entry_semantics (m : SMap) (fromKey toKey : Str) :
    (∀ v, lookupS m (sanitizeName fromKey) = some v →
      sanitizeName fromKey ≠ sanitizeName toKey →
      lookupS (applyRemapEntry m (fromKey, toKey)) (sanitizeName toKey) = some v ∧
      lookupS (applyRemapEntry m (fromKey, toKey)) (sanitizeName fromKey) = none) ∧
    (lookupS m (sanitizeName fromKey) = none →
      applyRemapEntry m (fromKey, toKey) = m) := by
  constructor
  · intro v hv hne
    constructor
    · simp only [applyRemapEntry, hv]
      rw [lookupS_mapDel, if_neg (Ne.symm hne), lookupS_mapSet, if_pos rfl]
    · simp only [applyRemapEntry, hv]
      rw [lookupS_mapDel, if_pos rfl]
  · intro h
    simp [applyRemapEntry, h]

/-- Witness for C5: remapping `API-KEY ↦ SERVICE_KEY` on `{API_KEY ↦ x}`
moves the value to `SERVICE_KEY` and removes `API_KEY`, and a remap whose
source key is absent changes nothing. -/
theorem c5_remap_entry_semantics_witness :
    (lookupS (applyRemapEntry [(str "API_KEY", str "x")]
      (str "API-KEY", str "SERVICE_KEY")) (sanitizeName (str "SERVICE_KEY")) =
        some (str "x") ∧
     lookupS (applyRemapEntry [(str "API_KEY", str "x")]
      (str "API-KEY", str "SERVICE_KEY")) (sanitizeName (str "API-KEY")) = none) ∧
    applyRemapEntry [(str "API_KEY", str "x")] (str "OTHER", str "NAME") =
      [(str "API_KEY", str "x")] :=
  ⟨(c5_remap_entry_semantics [(str "API_KEY", str "x")] (str "API-KEY")
      (str "SERVICE_KEY")).1 (str "x") (by decide) (by decide),
   (c5_remap_entry_semantics [(str "API_KEY", str "x")] (str "OTHER")
      (str "NAME")).2 (by decide)⟩

/-! ### Helper lemmas about the string primitives -/

theorem splitChar_ne_nil (c : Char) (s : Str) : splitChar c s ≠ [] := by
  cases s with
  | nil => simp [splitChar]
  | cons x xs =>
    rw [splitChar]
    cases h : splitChar c xs with
    | nil => simp
    | cons p rest => by_cases hx : x = c <;> simp [hx]

theorem splitChar_cons_shape (c : Char) (s : Str) :
    ∃ p rest, splitChar c s = p :: rest := by
  cases h : splitChar c s with
  | nil => exact absurd h (splitChar_ne_nil c s)
  | cons p rest => exact ⟨p, rest, rfl⟩

theorem splitChar_cons (c x : Char) (xs : Str) :
    splitChar c (x :: xs) =
      if x = c then [] :: splitChar c xs
      else (x :: (splitChar c xs).headD []) :: (splitChar c xs).tail := by
  obtain ⟨p, rest, hp⟩ := splitChar_cons_shape c xs
  rw [splitChar, hp]
  by_cases hx : x = c <;> simp [hx]

theorem splitChar_of_not_mem {c : Char} {s : Str} (h : c ∉ s) :
    splitChar c s = [s] := by
  induction s with
  | nil => simp [splitChar]
  | cons x xs ih =>
    have hx : ¬ x = c := fun hxc => h (by rw [hxc]; exact List.mem_cons_self c xs)
    rw [splitChar_cons, if_neg hx, ih (fun hm => h (List.mem_cons_of_mem x hm))]
    simp

theorem eq_single_of_splitChar {c : Char} {s p : Str}
    (h : splitChar c s = [p]) : s = p ∧ c ∉ s := by
  induction s generalizing p with
  | nil =>
    simp only [splitChar] at h
    cases h
    exact ⟨rfl, by simp⟩
  | cons x xs ih =>
    obtain ⟨q, rest, hq⟩ := splitChar_cons_shape c xs
    rw [splitChar_cons] at h
    by_cases hx : x = c
    · rw [if_pos hx] at h
      injection h with h1 h2
      exact absurd h2 (splitChar_ne_nil c xs)
    · rw [if_neg hx] at h
      injection h with h1 h2
      rw [hq] at h1 h2
      simp only [List.headD_cons, List.tail_cons] at h1 h2
      subst h2
      obtain ⟨hs, hc⟩ := ih hq
      subst hs
      refine ⟨h1.symm ▸ rfl, ?_⟩
      intro hm
      rcases List.mem_cons.mp hm with h1' | h1'
      · exact hx h1'.symm
      · exact hc h1'

theorem takeWhile_append_sep {p : Char → Bool} {c : Char} (hc : p c = false)
    (u w : Str) : (u ++ c :: w).takeWhile p = u.takeWhile p := by
  induction u with
  | nil => simp [List.takeWhile_cons, hc]
  | cons x u' ih => cases hx : p x <;> simp [List.takeWhile_cons, hx, ih]

theorem takeWhile_append_of_break {p : Char → Bool} {u : Str} (w : Str)
    (h : ∃ y ∈ u, p y = false) : (u ++ w).takeWhile p = u.takeWhile p := by
  induction u with
  | nil => simp at h
  | cons x u' ih =>
    rcases h with ⟨y, hy, hpy⟩
    rcases List.mem_cons.mp hy with rfl | hmem
    · simp [List.takeWhile_cons, hpy]
    · cases hx : p x <;> simp [List.takeWhile_cons, hx, ih ⟨y, hmem, hpy⟩]

theorem takeWhile_eq_self_of_forall {p : Char → Bool} {u : Str}
    (h : ∀ y ∈ u, p y = true) : u.takeWhile p = u := by
  induction u with
  | nil => simp
  | cons x u' ih =>
    simp [List.takeWhile_cons, h x (List.mem_cons_self x u'),
      ih fun y hy => h y (List.mem_cons_of_mem x hy)]

theorem afterLastSlash_cons_slash (s : Str) :
    afterLastSlash ('/' :: s) = afterLastSlash s := by
  unfold afterLastSlash
  rw [List.reverse_cons, takeWhile_append_sep (by decide) s.reverse []]

theorem afterLastSlash_of_not_mem {s : Str} (h : '/' ∉ s) :
    afterLastSlash s = s := by
  unfold afterLastSlash
  rw [takeWhile_eq_self_of_forall, List.reverse_reverse]
  intro y hy
  simp only [decide_eq_true_eq]
  intro hcon
  exact h (hcon ▸ List.mem_reverse.mp hy)

theorem afterLastSlash_cons_of_mem {x : Char} {s : Str} (h : '/' ∈ s) :
    afterLastSlash (x :: s) = afterLastSlash s := by
  unfold afterLastSlash
  rw [List.reverse_cons,
    takeWhile_append_of_break [x] ⟨'/', List.mem_reverse.mpr h, by simp⟩]

theorem lastSegment_eq_afterLastSlash (s : Str) :
    lastSegment s = afterLastSlash s := by
  induction s with
  | nil => simp [lastSegment, splitChar, afterLastSlash]
  | cons x xs ih =>
    obtain ⟨p, rest, hp⟩ := splitChar_cons_shape '/' xs
    unfold lastSegment at ih ⊢
    rw [splitChar_cons]
    by_cases hx : x = '/'
    · subst hx
      rw [if_pos rfl, afterLastSlash_cons_slash]
      rw [hp] at ih ⊢
      simpa [List.getLastD_cons] using ih
    · rw [if_neg hx, hp]
      simp only [List.headD_cons, List.tail_cons]
      cases rest with
      | nil =>
        obtain ⟨hs, hc⟩ := eq_single_of_splitChar hp
        subst hs
        have hnot : '/' ∉ x :: xs := by
          intro hm
          rcases List.mem_cons.mp hm with h1 | h1
          · exact hx h1.symm
          · exact hc h1
        rw [afterLastSlash_of_not_mem hnot]
        simp
      | cons r0 rest' =>
        have hmem : '/' ∈ xs := by
          by_contra hno
          rw [splitChar_of_not_mem hno] at hp
          cases hp
        rw [afterLastSlash_cons_of_mem hmem]
        rw [hp] at ih
        simpa [List.getLastD_cons] using ih

theorem toNat_ofNat_of_valid {n : Nat} (hval : n.isValidChar) :
    (Char.ofNat n).toNat = n := by
  simp [Char.ofNat, hval, Char.ofNatAux, Char.toNat, UInt32.toNat, BitVec.toNat_ofNatLt]

theorem eq_dash_of_toUpper_eq_dash {c : Char} (h : c.toUpper = '-') : c = '-' := by
  unfold Char.toUpper at h
  by_cases hc : c.toNat ≥ 97 ∧ c.toNat ≤ 122
  · exfalso
    rw [if_pos hc] at h
    have hval : (c.toNat - 32).isValidChar := by
      left
      omega
    have h3 := congrArg Char.toNat h
    rw [toNat_ofNat_of_valid hval] at h3
    have h4 : ('-' : Char).toNat = 45 := by decide
    omega
  · rw [if_neg hc] at h
    exact h

theorem goToUpper_replaceDash_comm (s : Str) :
    goToUpper (replaceChar '-' '_' s) = replaceChar '-' '_' (goToUpper s) := by
  unfold goToUpper replaceChar
  rw [List.map_map, List.map_map]
  apply List.map_congr_left
  intro c _
  simp only [Function.comp]
  by_cases hc : c = '-'
  · subst hc
    decide
  · rw [if_neg hc, if_neg (fun hu => hc (eq_dash_of_toUpper_eq_dash hu))]

theorem goTrimPrefixS_slash_nil : goTrimPrefixS [] (str "/") = [] := rfl

theorem goTrimPrefixS_slash_cons (xs : Str) :
    goTrimPrefixS ('/' :: xs) (str "/") = xs := by
  simp [goTrimPrefixS, goHasPrefixS, str]

theorem goTrimPrefixS_slash_other {x : Char} (xs : Str) (hx : x ≠ '/') :
    goTrimPrefixS (x :: xs) (str "/") = x :: xs := by
  simp [goTrimPrefixS, goHasPrefixS, str, hx]

/-- C7. The two variable-name derivation rules match their documented forms:
the path-prefix rule of `exportCommand` equals "remaining suffix with `/` and
`-` replaced by `_`, uppercased" (the code's uppercase-then-replace-dash order
commutes), and `ExtractVarName` equals "only the text after the last `/`,
with `-` replaced by `_`, uppercased"; on the documented examples they give
`AUTH_TOKEN` and `MG`. -/
theorem c7_varname_derivation :
    (∀ secretPath pathPrefix : Str,
      prefixKeyName secretPath pathPrefix = specPrefixVarName secretPath pathPrefix) ∧
    (∀ p : Str, ExtractVarName p = specFinalSegmentName p) ∧
    prefixKeyName (str "/prod/my-service/auth-token") (str "/prod/my-service") =
      str "AUTH_TOKEN" ∧
    ExtractVarName (str "/prod/my-service/auth-token") = str "AUTH_TOKEN" ∧
    ExtractVarName (str "/billing-svc/vars/mg") = str "MG" := by
  refine ⟨fun sp pp => ?_, fun p => ?_, by decide, by decide, by decide⟩
  · unfold prefixKeyName specPrefixVarName
    exact (goToUpper_replaceDash_comm _).symm
  · unfold ExtractVarName specFinalSegmentName
    rw [lastSegment_eq_afterLastSlash]
    cases p with
    | nil => rfl
    | cons x xs =>
      by_cases hx : x = '/'
      · subst hx
        rw [goTrimPrefixS_slash_cons, afterLastSlash_cons_slash]
      · rw [goTrimPrefixS_slash_other xs hx]

theorem str_slash : str "/" = ['/'] := rfl

theorem goTrimSuffixS_append_single (u : Str) (c : Char) :
    goTrimSuffixS (u ++ [c]) [c] = u := by
  have hsuf : goHasSuffixS (u ++ [c]) [c] = true := by
    simp [goHasSuffixS, goHasPrefixS, List.reverse_append]
  rw [goTrimSuffixS, if_pos hsuf]
  have hlen : (u ++ [c]).length - ([c] : Str).length = u.length := by simp
  rw [hlen, List.take_left]

/-- C9 counterexample. With `S = {/a ↦ v}` and the filter `f = "/a/"` (which
is not `"/"`), `FilteredSortedKeys(S, f ++ "/")` and `FilteredSortedKeys(S, f)`
differ: normalisation strips only one trailing slash, so the first call
filters with `"/a/"` (missing `/a`) while the second filters with `"/a"`. -/
theorem c9_trailing_slash_counterexample :
    str "/a/" ≠ str "/" ∧
    GetFilteredKeys [(str "/a", str "v")] (str "/a/" ++ str "/") = [] ∧
    GetFilteredKeys [(str "/a", str "v")] (str "/a/") = [str "/a"] := by
  decide

/-- C9 (amended: the trailing-slash equivalence
`FilteredSortedKeys(S, f ++ "/") = FilteredSortedKeys(S, f)` holds for every
filter `f` that does not itself end in `"/"`; a filter already ending in a
slash is a counterexample since normalisation strips only one). The empty
filter returns all keys of the SecretSet sorted lexicographically ascending. -/
theorem c9_filtered_sorted_keys (S : SMap) (f : Str) :
    (List.Sorted (· ≤ ·) (GetFilteredKeys S []) ∧
      (GetFilteredKeys S []).Perm (keysOf S)) ∧
    (goHasSuffixS f (str "/") = false →
      GetFilteredKeys S (f ++ str "/") = GetFilteredKeys S f) := by
  constructor
  · constructor
    · simpa [GetFilteredKeys, sortStrings] using
        List.sorted_insertionSort (α := Str) (· ≤ ·) (keysOf S)
    · simpa [GetFilteredKeys, sortStrings] using
        List.perm_insertionSort (α := Str) (· ≤ ·) (keysOf S)
  · intro hsuf
    cases f with
    | nil =>
      have h1 : GetFilteredKeys S (str "/") = sortStrings (keysOf S) := by
        simp [GetFilteredKeys, matchesPathFilter, str_slash]
      have h2 : GetFilteredKeys S [] = sortStrings (keysOf S) := by
        simp [GetFilteredKeys]
      rw [List.nil_append, h1, h2]
    | cons x xs =>
      have hne_nil : (x :: xs) ++ str "/" ≠ [] := by simp
      have hne_slash : (x :: xs) ++ str "/" ≠ str "/" := by
        intro h
        have := congrArg List.length h
        simp [str_slash] at this
      have hfne : (x :: xs) ≠ str "/" := by
        intro h
        rw [h] at hsuf
        simp [goHasSuffixS, goHasPrefixS, str_slash] at hsuf
      have htrimL : goTrimSuffixS ((x :: xs) ++ str "/") (str "/") = x :: xs := by
        rw [str_slash]
        exact goTrimSuffixS_append_single (x :: xs) '/'
      have htrimR : goTrimSuffixS (x :: xs) (str "/") = x :: xs := by
        rw [goTrimSuffixS, if_neg (by simp [hsuf])]
      unfold GetFilteredKeys
      rw [if_pos ⟨hne_nil, hne_slash⟩, if_pos ⟨List.cons_ne_nil x xs, hfne⟩,
        htrimL, htrimR]

/-- Witness for C9: on `S = {/a ↦ v}` the filters `"/a" ++ "/"` and `"/a"`
(which does not end in a slash) agree. -/
theorem c9_filtered_sorted_keys_witness :
    GetFilteredKeys [(str "/a", str "v")] (str "/a" ++ str "/") =
      GetFilteredKeys [(str "/a", str "v")] (str "/a") :=
  (c9_filtered_sorted_keys [(str "/a", str "v")] (str "/a")).2 (by decide)

/-! ### The parse loop over effective records -/

theorem parseLine_eq (m : SMap) (line : Str) :
    parseLine m line =
      match trimNonempty line with
      | none => m
      | some t => parseRecord m t := by
  unfold parseLine trimNonempty parseRecord
  by_cases h : goTrimSpace line = [] <;> simp [h]

theorem foldl_parseLine (lines : List Str) (m : SMap) :
    lines.foldl parseLine m = (lines.filterMap trimNonempty).foldl parseRecord m := by
  induction lines generalizing m with
  | nil => rfl
  | cons l ls ih =>
    rw [List.foldl_cons, List.filterMap_cons, parseLine_eq]
    cases h : trimNonempty l with
    | none => exact ih m
    | some t => rw [List.foldl_cons]; exact ih (parseRecord m t)

/-! ### Whitespace-trim lemmas -/

theorem length_dropWhile_le (p : Char → Bool) (l : Str) :
    (l.dropWhile p).length ≤ l.length := by
  induction l with
  | nil => simp
  | cons x xs ih =>
    rw [List.dropWhile_cons]
    split
    · exact Nat.le_trans ih (Nat.le_succ _)
    · exact Nat.le_refl _

theorem dropWhile_eq_self_of_length (p : Char → Bool) (l : Str)
    (h : (l.dropWhile p).length = l.length) : l.dropWhile p = l := by
  cases l with
  | nil => simp
  | cons x xs =>
    rw [List.dropWhile_cons] at h ⊢
    by_cases hp : p x = true
    · exfalso
      rw [if_pos hp] at h
      have hle := length_dropWhile_le p xs
      simp [List.length_cons] at h
      omega
    · rw [if_neg hp]

theorem dropWhile_append_of_ne {p : Char → Bool} {x : Str} (w : Str)
    (hx : x.dropWhile p ≠ []) : (x ++ w).dropWhile p = x.dropWhile p ++ w := by
  induction x with
  | nil => simp at hx
  | cons a x' ih =>
    by_cases ha : p a = true
    · rw [List.cons_append, List.dropWhile_cons, List.dropWhile_cons,
        if_pos ha, if_pos ha]
      apply ih
      rw [List.dropWhile_cons, if_pos ha] at hx
      exact hx
    · rw [List.cons_append, List.dropWhile_cons, List.dropWhile_cons,
        if_neg ha, if_neg ha]
      rfl

theorem trimLeft_eq_of_trim_eq {u : Str} (h : goTrimSpace u = u) :
    trimLeftSpace u = u := by
  have h1 : (goTrimSpace u).length ≤ (trimLeftSpace u).length := by
    unfold goTrimSpace trimRightSpace
    rw [List.length_reverse]
    calc ((trimLeftSpace u).reverse.dropWhile goIsSpace).length
        ≤ (trimLeftSpace u).reverse.length := length_dropWhile_le _ _
      _ = (trimLeftSpace u).length := List.length_reverse _
  have h2 : (trimLeftSpace u).length ≤ u.length := length_dropWhile_le _ _
  have h3 : (trimLeftSpace u).length = u.length := by
    rw [h] at h1
    omega
  exact dropWhile_eq_self_of_length _ _ h3

theorem trimRight_eq_of_trim_eq {u : Str} (h : goTrimSpace u = u) :
    trimRightSpace u = u := by
  have hl := trimLeft_eq_of_trim_eq h
  unfold goTrimSpace at h
  rw [hl] at h
  exact h

theorem head_not_space_of_trimLeft {x : Char} {xs : Str}
    (h : trimLeftSpace (x :: xs) = x :: xs) : goIsSpace x = false := by
  unfold trimLeftSpace at h
  rw [List.dropWhile_cons] at h
  by_cases hx : goIsSpace x = true
  · rw [if_pos hx] at h
    have := congrArg List.length h
    have hle := length_dropWhile_le goIsSpace xs
    simp at this
    omega
  · simpa using hx

theorem all_space_trim_eq_nil {l : Str} (h : ∀ y ∈ l, goIsSpace y = true) :
    goTrimSpace l = [] := by
  unfold goTrimSpace trimLeftSpace
  rw [List.dropWhile_eq_nil_iff.mpr (fun a ha => h a ha)]
  rfl

theorem trim_append_spaces {w : Str} (h : ∀ y ∈ w, goIsSpace y = true)
    (x : Str) : goTrimSpace (x ++ w) = goTrimSpace x := by
  by_cases hx : trimLeftSpace x = []
  · have hall : ∀ y ∈ x, goIsSpace y = true := by
      intro y hy
      exact List.dropWhile_eq_nil_iff.mp hx y hy
    have h1 : ∀ y ∈ x ++ w, goIsSpace y = true := by
      intro y hy
      rcases List.mem_append.mp hy with h' | h'
      · exact hall y h'
      · exact h y h'
    rw [all_space_trim_eq_nil h1, all_space_trim_eq_nil hall]
  · have hsplit : trimLeftSpace (x ++ w) = trimLeftSpace x ++ w := by
      unfold trimLeftSpace at hx ⊢
      exact dropWhile_append_of_ne w hx
    unfold goTrimSpace
    rw [hsplit]
    unfold trimRightSpace
    rw [List.reverse_append,
      List.dropWhile_append_of_pos (by intro a ha; exact h a (List.mem_reverse.mp ha))]

theorem spaces_append_trim {w : Str} (h : ∀ y ∈ w, goIsSpace y = true)
    (x : Str) : goTrimSpace (w ++ x) = goTrimSpace x := by
  unfold goTrimSpace trimLeftSpace
  rw [List.dropWhile_append_of_pos h]

theorem trimNonempty_append_spaces {w : Str} (h : ∀ y ∈ w, goIsSpace y = true)
    (x : Str) : trimNonempty (x ++ w) = trimNonempty x := by
  unfold trimNonempty
  rw [trim_append_spaces h]

theorem trimNonempty_spaces_append {w : Str} (h : ∀ y ∈ w, goIsSpace y = true)
    (x : Str) : trimNonempty (w ++ x) = trimNonempty x := by
  unfold trimNonempty
  rw [spaces_append_trim h]

theorem trimNonempty_of_spaces {w : Str} (h : ∀ y ∈ w, goIsSpace y = true) :
    trimNonempty w = none := by
  unfold trimNonempty
  rw [all_space_trim_eq_nil h]
  rfl

/-! ### How splitting interacts with append and join -/

theorem mem_of_mem_splitChar {c : Char} {s p : Str}
    (hp : p ∈ splitChar c s) : ∀ y ∈ p, y ∈ s := by
  induction s generalizing p with
  | nil =>
    simp only [splitChar, List.mem_singleton] at hp
    subst hp
    simp
  | cons x xs ih =>
    obtain ⟨q, rest, hq⟩ := splitChar_cons_shape c xs
    rw [splitChar_cons, hq] at hp
    by_cases hx : x = c
    · rw [if_pos hx] at hp
      rcases List.mem_cons.mp hp with h1 | h1
      · subst h1
        simp
      · intro y hy
        exact List.mem_cons_of_mem x (ih (hq ▸ h1) y hy)
    · rw [if_neg hx] at hp
      simp only [List.headD_cons, List.tail_cons] at hp
      rcases List.mem_cons.mp hp with h1 | h1
      · subst h1
        intro y hy
        rcases List.mem_cons.mp hy with h2 | h2
        · exact h2 ▸ List.mem_cons_self x xs
        · exact List.mem_cons_of_mem x
            (ih (hq ▸ List.mem_cons_self q rest) y h2)
      · intro y hy
        exact List.mem_cons_of_mem x
          (ih (hq ▸ List.mem_cons_of_mem q h1) y hy)

theorem splitChar_append (c : Char) (a b : Str) :
    splitChar c (a ++ b) = glue (splitChar c a) (splitChar c b) := by
  induction a with
  | nil =>
    obtain ⟨h, t, hb⟩ := splitChar_cons_shape c b
    rw [List.nil_append, hb]
    simp [splitChar, glue]
  | cons x a' ih =>
    obtain ⟨q, rest, hq⟩ := splitChar_cons_shape c a'
    obtain ⟨h, t, hb⟩ := splitChar_cons_shape c b
    rw [List.cons_append, splitChar_cons, splitChar_cons, ih, hq]
    by_cases hx : x = c
    · rw [if_pos hx, if_pos hx]
      cases rest with
      | nil => rw [hb]; simp [glue]
      | cons r0 rest' => simp [glue]
    · rw [if_neg hx, if_neg hx]
      cases rest with
      | nil =>
        rw [hb]
        simp [glue]
      | cons r0 rest' =>
        simp [glue]

theorem splitChar_sep_append {c : Char} {l : Str} (hno : c ∉ l) (rest : Str) :
    splitChar c (l ++ c :: rest) = l :: splitChar c rest := by
  induction l with
  | nil =>
    rw [List.nil_append, splitChar_cons, if_pos rfl]
  | cons x l' ih =>
    have hx : ¬ x = c := fun hxc => hno (by rw [hxc]; exact List.mem_cons_self c l')
    rw [List.cons_append, splitChar_cons, if_neg hx,
      ih (fun hm => hno (List.mem_cons_of_mem x hm))]
    simp

theorem splitChar_joinChar {c : Char} {ls : List Str} (hne : ls ≠ [])
    (hno : ∀ l ∈ ls, c ∉ l) : splitChar c (joinChar c ls) = ls := by
  induction ls with
  | nil => exact absurd rfl hne
  | cons l ls' ih =>
    cases ls' with
    | nil =>
      rw [joinChar, splitChar_of_not_mem (hno l (List.mem_cons_self l []))]
    | cons l2 ls'' =>
      rw [joinChar, splitChar_sep_append (hno l (List.mem_cons_self l _)),
        ih (List.cons_ne_nil l2 ls'')
          (fun x hx => hno x (List.mem_cons_of_mem l hx))]

/-! ### Effective records are stable under whole-payload trimming -/

theorem filterMap_trimNonempty_of_spaces {B : List Str}
    (hB : ∀ p ∈ B, ∀ y ∈ p, goIsSpace y = true) :
    B.filterMap trimNonempty = [] := by
  induction B with
  | nil => rfl
  | cons b B' ih =>
    rw [List.filterMap_cons, trimNonempty_of_spaces (hB b (List.mem_cons_self b B'))]
    exact ih fun p hp => hB p (List.mem_cons_of_mem b hp)

theorem filterMap_glue_spaces_left {W : List Str}
    (hW : ∀ p ∈ W, ∀ y ∈ p, goIsSpace y = true) :
    ∀ {S : List Str}, S ≠ [] →
      (glue W S).filterMap trimNonempty = S.filterMap trimNonempty := by
  induction W with
  | nil => intro S _; rfl
  | cons w0 W' ih =>
    intro S hS
    cases W' with
    | nil =>
      cases S with
      | nil => exact absurd rfl hS
      | cons h t =>
        show ((w0 ++ h) :: t).filterMap trimNonempty = (h :: t).filterMap trimNonempty
        rw [List.filterMap_cons, List.filterMap_cons,
          trimNonempty_spaces_append
            (hW w0 (List.mem_cons_self w0 [])) h]
    | cons w1 W'' =>
      show (w0 :: glue (w1 :: W'') S).filterMap trimNonempty = _
      rw [List.filterMap_cons,
        trimNonempty_of_spaces (hW w0 (List.mem_cons_self w0 _))]
      exact ih (fun p hp => hW p (List.mem_cons_of_mem w0 hp)) hS

theorem filterMap_glue_spaces_right {B : List Str}
    (hB : ∀ p ∈ B, ∀ y ∈ p, goIsSpace y = true) :
    ∀ (S : List Str), (glue S B).filterMap trimNonempty = S.filterMap trimNonempty := by
  intro S
  induction S with
  | nil =>
    show B.filterMap trimNonempty = []
    exact filterMap_trimNonempty_of_spaces hB
  | cons s0 S' ih =>
    cases S' with
    | nil =>
      cases B with
      | nil => rfl
      | cons h t =>
        show ((s0 ++ h) :: t).filterMap trimNonempty = [s0].filterMap trimNonempty
        rw [List.filterMap_cons, List.filterMap_cons,
          trimNonempty_append_spaces (hB h (List.mem_cons_self h t)) s0,
          filterMap_trimNonempty_of_spaces
            (fun p hp => hB p (List.mem_cons_of_mem h hp))]
        cases trimNonempty s0 <;> rfl
    | cons s1 S'' =>
      show (s0 :: glue (s1 :: S'') B).filterMap trimNonempty = _
      rw [List.filterMap_cons, List.filterMap_cons]
      cases trimNonempty s0 with
      | none => exact ih
      | some t => rw [ih]

theorem records_spaces_append {w : Str} (hw : ∀ y ∈ w, goIsSpace y = true)
    (s : Str) : records (w ++ s) = records s := by
  unfold records
  rw [splitChar_append]
  exact filterMap_glue_spaces_left
    (fun p hp y hy => hw y (mem_of_mem_splitChar hp y hy))
    (splitChar_ne_nil '\n' s)

theorem records_append_spaces (s : Str) {w : Str}
    (hw : ∀ y ∈ w, goIsSpace y = true) : records (s ++ w) = records s := by
  unfold records
  rw [splitChar_append]
  exact filterMap_glue_spaces_right
    (fun p hp y hy => hw y (mem_of_mem_splitChar hp y hy)) _

theorem records_trim (s : Str) : records (goTrimSpace s) = records s := by
  have h1 : records s = records (trimLeftSpace s) := by
    conv_lhs => rw [← List.takeWhile_append_dropWhile (p := goIsSpace) (l := s)]
    exact records_spaces_append (fun y hy => List.mem_takeWhile_imp hy) _
  have h2 : trimLeftSpace s =
      goTrimSpace s ++ (List.takeWhile goIsSpace (trimLeftSpace s).reverse).reverse := by
    conv_lhs => rw [← List.reverse_reverse (trimLeftSpace s),
      ← List.takeWhile_append_dropWhile (p := goIsSpace) (l := (trimLeftSpace s).reverse)]
    rw [List.reverse_append]
    rfl
  rw [h1, h2, records_append_spaces]
  intro y hy
  exact List.mem_takeWhile_imp (List.mem_reverse.mp hy)

/-- C8. The record parser is lenient and total: `parseSecrets` computes, for
every decrypted payload, exactly the spec-worded parse — split into lines,
trim each line, skip blanks, accept a line only when it contains `=`, key
before / value after the first `=`, both trimmed; lines without `=` are
silently dropped. (`parseSecrets` additionally trims the whole payload first,
which provably never changes the result; being a total function, it cannot
fail on any payload.) -/
theorem c8_parser_lenient_total (content : Str) :
    parseSecrets content = specLenientParse content := by
  unfold parseSecrets specLenientParse
  rw [foldl_parseLine, foldl_parseLine]
  show (records (goTrimSpace content)).foldl parseRecord [] =
    (records content).foldl parseRecord []
  rw [records_trim]

/-! ### The save payload and its round trip -/

theorem breakFirst_encode {k : Str} (hk : '=' ∉ k) (v : Str) :
    breakFirst '=' (k ++ '=' :: v) = some (k, v) := by
  induction k with
  | nil => simp [breakFirst]
  | cons x k' ih =>
    have hx : ¬ x = '=' := fun hxe => hk (by rw [hxe]; exact List.mem_cons_self '=' k')
    rw [List.cons_append, breakFirst, if_neg hx,
      ih fun hm => hk (List.mem_cons_of_mem x hm)]

theorem validateKeyPath_props {k : Str} (h : validateKeyPath k = true) :
    (∃ k', k = '/' :: k') ∧ '=' ∉ k ∧ '\n' ∉ k := by
  unfold validateKeyPath at h
  simp only [Bool.and_eq_true, Bool.not_eq_true'] at h
  obtain ⟨⟨⟨⟨⟨h1, h2⟩, h3⟩, h4⟩, h5⟩, h6⟩ := h
  refine ⟨?_, fun hm => by simp_all, fun hm => by simp_all⟩
  cases k with
  | nil => simp [goHasPrefixS, str_slash] at h2
  | cons x xs =>
    rw [str_slash] at h2
    simp [goHasPrefixS] at h2
    exact ⟨xs, by rw [h2]⟩

theorem trimRightSpace_of_rev_head {line : Str} {z : Char} {w : Str}
    (hrev : line.reverse = z :: w) (hz : goIsSpace z = false) :
    trimRightSpace line = line := by
  unfold trimRightSpace
  rw [hrev, List.dropWhile_cons, if_neg (by simp [hz]), ← hrev, List.reverse_reverse]

theorem trim_line_eq {k v : Str} (hkval : validateKeyPath k = true)
    (hkt : goTrimSpace k = k) (hvt : goTrimSpace v = v) :
    goTrimSpace (k ++ '=' :: v) = k ++ '=' :: v := by
  obtain ⟨⟨k', hk'⟩, _, _⟩ := validateKeyPath_props hkval
  have hleft : trimLeftSpace (k ++ '=' :: v) = k ++ '=' :: v := by
    rw [hk', List.cons_append]
    unfold trimLeftSpace
    rw [List.dropWhile_cons, if_neg (by simp [goIsSpace])]
  have hrevline : (k ++ '=' :: v).reverse = v.reverse ++ '=' :: k.reverse := by
    rw [List.reverse_append, List.reverse_cons, List.append_assoc]
    rfl
  unfold goTrimSpace
  rw [hleft]
  cases hv0 : v.reverse with
  | nil =>
    apply trimRightSpace_of_rev_head (z := '=') (w := k.reverse)
    · rw [hrevline, hv0, List.nil_append]
    · decide
  | cons z w =>
    have hvr : trimRightSpace v = v := trimRight_eq_of_trim_eq hvt
    have hdrop : v.reverse.dropWhile goIsSpace = v.reverse := by
      have h2 := congrArg List.reverse hvr
      have h3 : (trimRightSpace v).reverse = v.reverse.dropWhile goIsSpace := by
        unfold trimRightSpace
        rw [List.reverse_reverse]
      rw [h3] at h2
      exact h2
    have hz : goIsSpace z = false := by
      apply head_not_space_of_trimLeft
      show List.dropWhile goIsSpace (z :: w) = z :: w
      rw [← hv0]
      exact hdrop
    apply trimRightSpace_of_rev_head (z := z) (w := w ++ '=' :: k.reverse) _ hz
    rw [hrevline, hv0, List.cons_append]

theorem lookupS_cons (k v : Str) (rest : SMap) (q : Str) :
    lookupS ((k, v) :: rest) q = if k = q then some v else lookupS rest q := rfl

theorem lookupS_eq_none_of_not_mem {m : SMap} {q : Str} (h : q ∉ keysOf m) :
    lookupS m q = none := by
  induction m with
  | nil => rfl
  | cons p rest ih =>
    obtain ⟨k, v⟩ := p
    simp only [keysOf, List.map_cons, List.mem_cons, not_or] at h
    rw [lookupS_cons, if_neg (fun hk => h.1 hk.symm)]
    exact ih (by simpa [keysOf] using h.2)

theorem lookupS_foldSet {entries : SMap} (hnd : NodupKeys entries) :
    ∀ (m : SMap) (q : Str),
      lookupS (foldSet m entries) q = (lookupS entries q).or (lookupS m q) := by
  induction entries with
  | nil =>
    intro m q
    rfl
  | cons e rest ih =>
    obtain ⟨k, v⟩ := e
    intro m q
    have hmk : k ∉ keysOf rest ∧ (keysOf rest).Nodup := by
      have := hnd
      unfold NodupKeys keysOf at this
      rw [List.map_cons] at this
      exact List.nodup_cons.mp this
    show lookupS (foldSet (mapSet m k v) rest) q = _
    rw [ih hmk.2 (mapSet m k v) q, lookupS_mapSet, lookupS_cons]
    by_cases hq : q = k
    · subst hq
      rw [lookupS_eq_none_of_not_mem hmk.1, if_pos rfl, if_pos rfl]
      rfl
    · rw [if_neg hq, if_neg (fun hk => hq hk.symm)]

theorem lookupS_perm {l₁ l₂ : SMap} (h : l₁.Perm l₂) :
    NodupKeys l₁ → ∀ q, lookupS l₁ q = lookupS l₂ q := by
  induction h with
  | nil => intro _ _; rfl
  | cons x h' ih =>
    obtain ⟨k, v⟩ := x
    intro hnd q
    have hnd' : NodupKeys _ :=
      (List.nodup_cons.mp (by simpa [NodupKeys, keysOf] using hnd)).2
    rw [lookupS_cons, lookupS_cons]
    by_cases hq : k = q
    · rw [if_pos hq, if_pos hq]
    · rw [if_neg hq, if_neg hq, ih hnd' q]
  | swap x y l =>
    obtain ⟨kx, vx⟩ := x
    obtain ⟨ky, vy⟩ := y
    intro hnd q
    have hne : ky ≠ kx := by
      unfold NodupKeys keysOf at hnd
      rw [List.map_cons, List.map_cons] at hnd
      have := (List.nodup_cons.mp hnd).1
      simp only [List.mem_cons, not_or] at this
      exact this.1
    rw [lookupS_cons, lookupS_cons, lookupS_cons, lookupS_cons]
    by_cases h1 : ky = q <;> by_cases h2 : kx = q
    · exact absurd (h1.trans h2.symm) hne
    · rw [if_pos h1, if_neg h2, if_pos h1]
    · rw [if_neg h1, if_pos h2, if_pos h2]
    · rw [if_neg h1, if_neg h2, if_neg h2, if_neg h1]
  | trans h12 h23 ih1 ih2 =>
    intro hnd q
    rw [ih1 hnd q]
    exact ih2 (((h12.map Prod.fst).nodup_iff).mp hnd) q

theorem filterMap_trimNonempty_eq_self {L : List Str}
    (h : ∀ l ∈ L, trimNonempty l = some l) : L.filterMap trimNonempty = L := by
  induction L with
  | nil => rfl
  | cons l L' ih =>
    rw [List.filterMap_cons, h l (List.mem_cons_self l L')]
    rw [ih fun x hx => h x (List.mem_cons_of_mem l hx)]

theorem foldl_parseRecord_eq_foldSet {L : List Str}
    (h : ∀ l ∈ L, (breakFirst '=' l).isSome = true) :
    ∀ m : SMap, L.foldl parseRecord m = foldSet m (L.map decodeLine) := by
  induction L with
  | nil => intro m; rfl
  | cons l L' ih =>
    intro m
    rw [List.foldl_cons, List.map_cons]
    have hstep : parseRecord m l = mapSet m (decodeLine l).1 (decodeLine l).2 := by
      cases hb : breakFirst '=' l with
      | none =>
        exact absurd (hb ▸ h l (List.mem_cons_self l L')) (by simp)
      | some kv =>
        unfold parseRecord decodeLine
        rw [hb]
    rw [hstep]
    exact ih (fun x hx => h x (List.mem_cons_of_mem l hx)) (mapSet m _ _)

theorem decodeLine_encode {p : Str × Str} (hkval : validateKeyPath p.1 = true)
    (hkt : goTrimSpace p.1 = p.1) (hvt : goTrimSpace p.2 = p.2) :
    decodeLine (p.1 ++ '=' :: p.2) = p := by
  obtain ⟨_, hknoeq, _⟩ := validateKeyPath_props hkval
  unfold decodeLine
  rw [breakFirst_encode hknoeq]
  simp only []
  rw [hkt, hvt]

theorem records_saveContent {S : SMap} (hS : S ≠ [])
    (hk : ∀ p ∈ S, validateKeyPath p.1 = true ∧ goTrimSpace p.1 = p.1)
    (hv : ∀ p ∈ S, p.2.contains '\n' = false ∧ goTrimSpace p.2 = p.2) :
    records (saveContent S) =
      sortStrings (S.map fun p => p.1 ++ '=' :: p.2) := by
  have hperm : (sortStrings (S.map fun p => p.1 ++ '=' :: p.2)).Perm
      (S.map fun p => p.1 ++ '=' :: p.2) := List.perm_insertionSort _ _
  have hmem : ∀ l ∈ sortStrings (S.map fun p => p.1 ++ '=' :: p.2),
      ∃ p ∈ S, l = p.1 ++ '=' :: p.2 := by
    intro l hl
    obtain ⟨p, hp, hpe⟩ := List.mem_map.mp (hperm.mem_iff.mp hl)
    exact ⟨p, hp, hpe.symm⟩
  have hno : ∀ l ∈ sortStrings (S.map fun p => p.1 ++ '=' :: p.2), '\n' ∉ l := by
    intro l hl hmem'
    obtain ⟨p, hp, rfl⟩ := hmem l hl
    obtain ⟨_, _, hnl⟩ := validateKeyPath_props (hk p hp).1
    rcases List.mem_append.mp hmem' with h1 | h1
    · exact hnl h1
    · rcases List.mem_cons.mp h1 with h2 | h2
      · exact absurd h2 (by decide)
      · have := (hv p hp).1
        simp_all
  have hne : sortStrings (S.map fun p => p.1 ++ '=' :: p.2) ≠ [] := by
    intro h0
    rw [h0] at hperm
    have h1 : S.map (fun p => p.1 ++ '=' :: p.2) = [] := hperm.symm.eq_nil
    exact hS (List.map_eq_nil_iff.mp h1)
  unfold saveContent records
  rw [splitChar_joinChar hne hno]
  apply filterMap_trimNonempty_eq_self
  intro l hl
  obtain ⟨p, hp, rfl⟩ := hmem l hl
  unfold trimNonempty
  rw [trim_line_eq (hk p hp).1 (hk p hp).2 (hv p hp).2]
  rw [if_neg ?_]
  obtain ⟨⟨k', hk'⟩, _, _⟩ := validateKeyPath_props (hk p hp).1
  rw [hk']
  simp

/-- C3 counterexample. A value containing a newline breaks the round trip:
saving `{/a ↦ "x\ny"}` serialises the line `/a=x\ny`, which parses back as
`/a ↦ "x"` (the dangling `y` line has no `=` and is dropped), so
`Load(Save(S)) ≠ S` for this SecretSet with an arbitrary string value. -/
theorem c3_roundtrip_counterexample :
    lookupS (parseSecrets (saveContent [(str "/a", str "x\ny")])) (str "/a") ≠
      lookupS [(str "/a", str "x\ny")] (str "/a") := by
  decide

/-- C3 (amended: values must contain no newline and neither keys nor values
may carry surrounding whitespace — both trim to themselves — and keys are
valid SecretPaths; for a genuinely arbitrary string value the counterexample
applies). Under these conditions the parse of the saved payload agrees with
the SecretSet on every path, i.e. `Load(Save(S)) = S` as a set of path/value
pairs, order-independent. Encryption is the external collaborator: with a
compatible key pair decryption inverts encryption, so the round trip reduces
to `parseSecrets (saveContent S)`. -/
theorem c3_roundtrip (S : SMap) (hnd : NodupKeys S)
    (hk : ∀ p ∈ S, validateKeyPath p.1 = true ∧ goTrimSpace p.1 = p.1)
    (hv : ∀ p ∈ S, p.2.contains '\n' = false ∧ goTrimSpace p.2 = p.2) :
    ∀ q, lookupS (parseSecrets (saveContent S)) q = lookupS S q := by
  intro q
  by_cases hS : S = []
  · subst hS
    rfl
  · have hfold : parseSecrets (saveContent S) =
        (records (saveContent S)).foldl parseRecord [] := by
      unfold parseSecrets
      rw [foldl_parseLine]
      show (records (goTrimSpace (saveContent S))).foldl parseRecord [] = _
      rw [records_trim]
    rw [hfold, records_saveContent hS hk hv]
    have hbreak : ∀ l ∈ sortStrings (S.map fun p => p.1 ++ '=' :: p.2),
        (breakFirst '=' l).isSome = true := by
      intro l hl
      obtain ⟨p, hp, hpe⟩ := List.mem_map.mp
        ((List.perm_insertionSort _ _).mem_iff.mp hl)
      obtain ⟨_, hkeq, _⟩ := validateKeyPath_props (hk p hp).1
      rw [← hpe, breakFirst_encode hkeq]
      rfl
    rw [foldl_parseRecord_eq_foldSet hbreak []]
    have hpermE :
        ((sortStrings (S.map fun p => p.1 ++ '=' :: p.2)).map decodeLine).Perm S := by
      have h1 : ((sortStrings (S.map fun p => p.1 ++ '=' :: p.2)).map decodeLine).Perm
          ((S.map fun p => p.1 ++ '=' :: p.2).map decodeLine) :=
        (List.perm_insertionSort _ _).map decodeLine
      have h2 : (S.map fun p => p.1 ++ '=' :: p.2).map decodeLine = S := by
        rw [List.map_map]
        have h3 : ∀ p ∈ S, (decodeLine ∘ fun p => p.1 ++ '=' :: p.2) p = id p := by
          intro p hp
          simp only [Function.comp, id]
          exact decodeLine_encode (hk p hp).1 (hk p hp).2 (hv p hp).2
        rw [List.map_congr_left h3, List.map_id]
      rw [h2] at h1
      exact h1
    have hndE :
        NodupKeys ((sortStrings (S.map fun p => p.1 ++ '=' :: p.2)).map decodeLine) :=
      ((hpermE.map Prod.fst).nodup_iff).mpr hnd
    rw [lookupS_foldSet hndE [] q, lookupS_perm hpermE hndE q]
    cases lookupS S q <;> rfl

/-- Witness for C3 on the SecretSet `{/b ↦ 2, /a ↦ 1}`. -/
theorem c3_roundtrip_witness :
    lookupS (parseSecrets (saveContent [(str "/b", str "2"), (str "/a", str "1")]))
      (str "/a") = lookupS [(str "/b", str "2"), (str "/a", str "1")] (str "/a") :=
  c3_roundtrip [(str "/b", str "2"), (str "/a", str "1")]
    (by unfold NodupKeys keysOf; decide) (by decide) (by decide) (str "/a")
